import Mathlib

/-!
Verification of the snapshot tree, metrics engine and merge-diff algorithm of
the integrity-checker repository (src/database.rs), as a shallow embedding.

Modelling conventions:
* `PathBuf` keys inside one directory level are single path segments; they are
  modelled as `String` (any linearly ordered key type would do; the source
  relies only on the total order of `PathBuf`).
* A relative path (`PathBuf` with several components) is a `List String` of
  its segments, as produced by `Path::components()`.
* `BTreeMap<PathBuf, V>` is modelled as an association list sorted strictly by
  key (`List.Pairwise` on the keys), which is the invariant the B-tree
  maintains; iteration order of the model is list order.
* Rust byte values (`u8`) are `Nat` together with explicit `< 256` bounds
  where a claim needs them.
* Functions that can hit a `panic!`/`unreachable!` in the source return
  `Option`, with `none` marking the panic.
-/

/-- A path segment, the key of one directory level (`PathBuf` in the source,
holding a single component). -/
abbrev Seg := String

/-- Per-file fingerprint record (`struct Metrics`). The two digests are the
raw output bytes of the external hash algorithms (`HashSum(Vec<u8>)`). -/
structure Metrics where
  sha2 : List Nat
  sha3 : List Nat
  size : Nat
  nul : Bool
  nonascii : Bool
deriving Repr, DecidableEq

/-- A node of the snapshot tree (`enum Entry`): a directory holds an ordered
map from path segment to child entry, a file holds its metrics. -/
inductive Entry where
  | Directory : List (Seg × Entry) → Entry
  | File : Metrics → Entry
deriving Repr

/-- `impl Default for Entry`: an empty directory. -/
def Entry.defaultEntry : Entry := Entry.Directory []

/-- Aggregated per-directory change counters (`struct DirectoryDiff`). -/
structure DirectoryDiff where
  added : Nat
  removed : Nat
  changed : Nat
  unchanged : Nat
deriving Repr, DecidableEq

/-- Per-file change classification (`struct MetricsDiff`). -/
structure MetricsDiff where
  changed_content : Bool
  zeroed : Bool
  changed_nul : Bool
  changed_nonascii : Bool
deriving Repr, DecidableEq

/-- The result of comparing two entries (`enum EntryDiff`). -/
inductive EntryDiff where
  | Directory : List (Seg × EntryDiff) → DirectoryDiff → EntryDiff
  | File : MetricsDiff → EntryDiff
  | KindChanged : EntryDiff
deriving Repr

/-- `BTreeMap::get` on the sorted association list model. -/
def mapGet : List (Seg × Entry) → Seg → Option Entry
  | [], _ => none
  | (k, v) :: rest, key => if key = k then some v else mapGet rest key

/-- `BTreeMap::insert` on the sorted association list model: insert in key
order, replacing an existing binding. -/
def mapInsert : List (Seg × Entry) → Seg → Entry → List (Seg × Entry)
  | [], key, val => [(key, val)]
  | (k, v) :: rest, key, val =>
    if key < k then (key, val) :: (k, v) :: rest
    else if key = k then (key, val) :: rest
    else (k, v) :: mapInsert rest key val

/-- The per-child rollup performed in the `Ordering::Equal` arm of
`Entry::diff`: how one recursively computed child diff is added into the
parent directory counters. -/
def DirectoryDiff.addChild (d : DirectoryDiff) : EntryDiff → DirectoryDiff
  | EntryDiff.Directory _ stats =>
      { added := d.added + stats.added,
        removed := d.removed + stats.removed,
        changed := d.changed + stats.changed,
        unchanged := d.unchanged + stats.unchanged }
  | EntryDiff.File stats =>
      if stats.changed_content then { d with changed := d.changed + 1 }
      else { d with unchanged := d.unchanged + 1 }
  | EntryDiff.KindChanged => { d with changed := d.changed + 1 }

mutual

/-- `Entry::diff` (src/database.rs): recursive diff of two snapshot trees.
Two directories run the linear merge `diffList` over their child maps; two
files compare their metrics fieldwise; a directory against a file (either
order) is a kind change. -/
def Entry.diff : Entry → Entry → EntryDiff
  | Entry.Directory old, Entry.Directory new =>
      let r := diffList old new
      EntryDiff.Directory r.1 r.2
  | Entry.File old, Entry.File new =>
      EntryDiff.File
        { changed_content := old.size != new.size ||
            old.sha2 != new.sha2 ||
            old.sha3 != new.sha3,
          zeroed := decide (old.size > 0) && decide (new.size = 0),
          changed_nul := old.nul != new.nul,
          changed_nonascii := old.nonascii != new.nonascii }
  | Entry.Directory _, Entry.File _ => EntryDiff.KindChanged
  | Entry.File _, Entry.Directory _ => EntryDiff.KindChanged
termination_by a b => sizeOf a + sizeOf b
decreasing_by all_goals (simp_wf; try omega)

/-- The while-loop of the `Directory`/`Directory` arm of `Entry::diff`: a
linear merge over the two ordered child maps, returning the recorded child
diffs (in scan order, i.e. key order) and the four counters.  The two
argument lists are the remaining entries of each side including the loop's
lookahead pair (`old_entry`/`new_entry` hold the head, the iterator the
tail).  The loop exits as soon as either lookahead is `None`; the trailing
`removed += old_iter.count()` / `added += new_iter.count()` of the source
then count only the entries still inside the iterator, so the lookahead
entry still held on the non-exhausted side is dropped: the exhaustion
equations below count `length - 1` of the remaining side, exactly as the
code does. -/
def diffList : List (Seg × Entry) → List (Seg × Entry) →
    List (Seg × EntryDiff) × DirectoryDiff
  | [], [] => ([], { added := 0, removed := 0, changed := 0, unchanged := 0 })
  | [], (_ :: newRest) => ([], { added := newRest.length, removed := 0, changed := 0, unchanged := 0 })
  | (_ :: oldRest), [] => ([], { added := 0, removed := oldRest.length, changed := 0, unchanged := 0 })
  | (ok, ov) :: oldRest, (nk, nv) :: newRest =>
    if ok < nk then
      let r := diffList oldRest ((nk, nv) :: newRest)
      (r.1, { r.2 with removed := r.2.removed + 1 })
    else if nk < ok then
      let r := diffList ((ok, ov) :: oldRest) newRest
      (r.1, { r.2 with added := r.2.added + 1 })
    else
      let d := Entry.diff ov nv
      let r := diffList oldRest newRest
      ((ok, d) :: r.1, r.2.addChild d)
termination_by old new => sizeOf old + sizeOf new
decreasing_by all_goals (simp_wf; try omega)

end

/-- `Entry::lookup` (src/database.rs): read-only walk of a relative path,
given as its list of segments.  The source can panic: on an empty path the
`components.next().expect("unreachable")` fails, and when the walk enters a
`File` while segments remain the `Entry::File(_) => unreachable!()` arm
fires.  The model returns `none` for a panic and `some r` for the source's
normal return value `r : Option<&Entry>`. -/
def Entry.lookup : Entry → List Seg → Option (Option Entry)
  | Entry.Directory _, [] => none
  | Entry.Directory entries, [k] => some (mapGet entries k)
  | Entry.Directory entries, k :: r :: rest =>
      match mapGet entries k with
      | none => some none
      | some sub => Entry.lookup sub (r :: rest)
  | Entry.File _, _ => none

/-- `Entry::insert` (src/database.rs): insert `file` at the relative path
given as its list of segments, materialising missing intermediate
directories via `get_default`.  The source panics (`unreachable!`) on a
duplicate leaf insertion and when the node being inserted into is a `File`;
the `components.next().expect` also panics on an empty path.  The model
returns `none` for a panic and `some` of the updated tree otherwise. -/
def Entry.insert : Entry → List Seg → Entry → Option Entry
  | Entry.Directory _, [], _ => none
  | Entry.Directory entries, [k], file =>
      match mapGet entries k with
      | some _ => none
      | none => some (Entry.Directory (mapInsert entries k file))
  | Entry.Directory entries, k :: r :: rest, file =>
      let sub := (mapGet entries k).getD Entry.defaultEntry
      match Entry.insert sub (r :: rest) file with
      | none => none
      | some sub2 => some (Entry.Directory (mapInsert entries k sub2))
  | Entry.File _, _, _ => none

/-- `pub struct Database(Entry)`: a snapshot wrapping the root entry. -/
structure Database where
  root : Entry

/-- `Database::lookup`: delegate to the root entry. -/
def Database.lookup (db : Database) (path : List Seg) : Option (Option Entry) :=
  db.root.lookup path

/-- `Database::diff`: delegate to the root entry. -/
def Database.diff (db other : Database) : EntryDiff :=
  db.root.diff other.root

/-!
The metrics engine (`struct Engines` and the per-field engine structs).  The
two digest accumulators come from the external `sha2`/`sha3` crates; their
streaming contract is that `input` absorbs bytes in order and `result`
finalises the absorbed sequence.  The model keeps each accumulator's state as
the list of bytes absorbed so far and abstracts the two finalisation
functions as parameters of `Engines.result`, since the hash algorithms
themselves are not part of this repository.
-/

/-- The state of `struct Engines`: the two digest accumulators (as the byte
sequences absorbed so far), plus `EngineSize`, `EngineNul` and
`EngineNonascii` states. -/
structure Engines where
  sha2 : List Nat
  sha3 : List Nat
  size : Nat
  nul : Bool
  nonascii : Bool
deriving Repr, DecidableEq

/-- `Engines::default()`: all engines start empty. -/
def Engines.init : Engines := ⟨[], [], 0, false, false⟩

/-- `Engines::input`: feed one chunk to every engine.  `EngineSize` adds the
chunk length, `EngineNul` ORs in "some byte is 0", `EngineNonascii` ORs in
"some byte has the high bit set" (`x & 0x80 != 0`). -/
def Engines.input (e : Engines) (chunk : List Nat) : Engines :=
  { sha2 := e.sha2 ++ chunk,
    sha3 := e.sha3 ++ chunk,
    size := e.size + chunk.length,
    nul := e.nul || chunk.any (fun x => x == 0),
    nonascii := e.nonascii || chunk.any (fun x => x &&& 0x80 != 0) }

/-- `Engines::result`: finalise every engine into a `Metrics` record.  The
digest finalisation functions `f2`/`f3` (SHA-256 and SHA3-256 of the
absorbed bytes) are parameters, the algorithms being external crates. -/
def Engines.result (f2 f3 : List Nat → List Nat) (e : Engines) : Metrics :=
  { sha2 := f2 e.sha2,
    sha3 := f3 e.sha3,
    size := e.size,
    nul := e.nul,
    nonascii := e.nonascii }

/-- The read loop of `compute_metrics`, for a file whose contents arrive as
the given list of chunks: feed every chunk in order, then finalise. -/
def compute_metrics (f2 f3 : List Nat → List Nat) (chunks : List (List Nat)) : Metrics :=
  (chunks.foldl Engines.input Engines.init).result f2 f3

/-!  Theorems. -/

/-- C4: diffing two `File` entries produces a `MetricsDiff` whose
`changed_content` holds iff the size or either digest differs, whose
`zeroed` holds iff the old size is positive and the new size is zero (so an
empty file staying empty does not set it), and whose NUL / non-ASCII flags
record direct boolean inequality of the corresponding metrics flags. -/
theorem file_diff_classification (o n : Metrics) :
    ∃ md, Entry.diff (Entry.File o) (Entry.File n) = EntryDiff.File md ∧
      (md.changed_content = true ↔ (o.size ≠ n.size ∨ o.sha2 ≠ n.sha2 ∨ o.sha3 ≠ n.sha3)) ∧
      (md.zeroed = true ↔ (0 < o.size ∧ n.size = 0)) ∧
      (md.changed_nul = true ↔ o.nul ≠ n.nul) ∧
      (md.changed_nonascii = true ↔ o.nonascii ≠ n.nonascii) := by
  refine ⟨{ changed_content := o.size != n.size || o.sha2 != n.sha2 || o.sha3 != n.sha3,
            zeroed := decide (o.size > 0) && decide (n.size = 0),
            changed_nul := o.nul != n.nul,
            changed_nonascii := o.nonascii != n.nonascii }, ?_, ?_, ?_, ?_, ?_⟩
  · simp [Entry.diff]
  · simp [Bool.or_eq_true, bne_iff_ne, or_assoc]
  · simp [Bool.and_eq_true, decide_eq_true_eq]
  · simp [bne_iff_ne]
  · simp [bne_iff_ne]

/-- A sample metrics record, used by witness theorems. -/
def mSample : Metrics := ⟨[1], [2], 3, false, false⟩

/-- C1: refuted as stated — the exhaustion clause fails on the code.  The
merge loop holds a lookahead pair pulled off each iterator and exits as soon
as one side yields `None`; the trailing `removed += old_iter.count()` /
`added += new_iter.count()` count only the entries still inside the
iterator, never the lookahead entry still held on the non-exhausted side.
Diffing the empty directory against one holding the single key `b`
therefore reports `added = 0` although one new key remains (the claim, like
the spec, requires each remaining new key to add exactly 1); the mirrored
input reports `removed = 0`.  This theorem evaluates the faithful embedding
at that failing input. -/
theorem diff_exhaustion_drops_lookahead :
    Entry.diff (Entry.Directory []) (Entry.Directory [("b", Entry.File mSample)]) =
      EntryDiff.Directory [] { added := 0, removed := 0, changed := 0, unchanged := 0 } ∧
    Entry.diff (Entry.Directory [("b", Entry.File mSample)]) (Entry.Directory []) =
      EntryDiff.Directory [] { added := 0, removed := 0, changed := 0, unchanged := 0 } := by
  constructor
  · simp [Entry.diff, diffList]
  · simp [Entry.diff, diffList]

/-- The shape of a self-diff: every directory node carries zero
added/removed/changed counters, every file node an all-false `MetricsDiff`,
and no `KindChanged` node occurs. -/
inductive ZeroDiff : EntryDiff → Prop
  | dir {es : List (Seg × EntryDiff)} {d : DirectoryDiff} :
      d.added = 0 → d.removed = 0 → d.changed = 0 →
      (∀ p ∈ es, ZeroDiff p.2) → ZeroDiff (EntryDiff.Directory es d)
  | file {m : MetricsDiff} :
      m.changed_content = false → m.zeroed = false → m.changed_nul = false →
      m.changed_nonascii = false → ZeroDiff (EntryDiff.File m)

/-- C2: diffing a snapshot against itself yields a diff tree in which every
directory node reports `added = 0`, `removed = 0` and `changed = 0`, and
every file node's `MetricsDiff` has all four booleans false. -/
theorem diff_self_identity (db : Database) : ZeroDiff (db.diff db) := by
  suffices h : ∀ a b : Entry, a = b → ZeroDiff (Entry.diff a b) from h db.root db.root rfl
  intro a b
  refine Entry.diff.induct
    (fun a b => a = b → ZeroDiff (Entry.diff a b))
    (fun old new => old = new →
      ((diffList old new).2.added = 0 ∧ (diffList old new).2.removed = 0 ∧
       (diffList old new).2.changed = 0) ∧ ∀ p ∈ (diffList old new).1, ZeroDiff p.2)
    ?_ ?_ ?_ ?_ ?_ ?_ ?_ ?_ ?_ ?_ a b
  · intro old new ih h
    obtain rfl : old = new := by injection h
    obtain ⟨⟨ha, hr, hc⟩, hes⟩ := ih rfl
    have he : Entry.diff (Entry.Directory old) (Entry.Directory old) =
        EntryDiff.Directory (diffList old old).1 (diffList old old).2 := by
      simp [Entry.diff]
    rw [he]
    exact ZeroDiff.dir ha hr hc hes
  · intro o n h
    obtain rfl : o = n := by injection h
    have he : Entry.diff (Entry.File o) (Entry.File o) =
        EntryDiff.File { changed_content := false,
                         zeroed := decide (o.size > 0) && decide (o.size = 0),
                         changed_nul := false, changed_nonascii := false } := by
      simp [Entry.diff]
    rw [he]
    refine ZeroDiff.file rfl ?_ rfl rfl
    rcases Nat.eq_zero_or_pos o.size with h0 | h0
    · simp [h0]
    · simp [h0.ne']
  · intro a m h
    simp at h
  · intro m a h
    simp at h
  · intro h
    simp [diffList]
  · intro n newRest h
    simp at h
  · intro o oldRest h
    simp at h
  · intro ok ov oldRest nk nv newRest hlt ih h
    injection h with h1 h2
    injection h1 with hk hv
    subst hk
    exact absurd hlt (lt_irrefl _)
  · intro ok ov oldRest nk nv newRest hnlt hgt ih h
    injection h with h1 h2
    injection h1 with hk hv
    subst hk
    exact absurd hgt (lt_irrefl _)
  · intro ok ov oldRest nk nv newRest hnlt hngt ih1 ih2 h
    injection h with h1 h2
    injection h1 with hk hv
    subst hk; subst hv; subst h2
    obtain ⟨⟨ha, hr, hc⟩, hes⟩ := ih2 rfl
    have hz := ih1 rfl
    have he : diffList ((ok, ov) :: oldRest) ((ok, ov) :: oldRest) =
        ((ok, Entry.diff ov ov) :: (diffList oldRest oldRest).1,
         (diffList oldRest oldRest).2.addChild (Entry.diff ov ov)) := by
      simp [diffList, lt_irrefl]
    rw [he]
    generalize hgen : Entry.diff ov ov = q at hz he ⊢
    cases hz with
    | dir ha2 hr2 hc2 hes2 =>
      refine ⟨⟨?_, ?_, ?_⟩, ?_⟩
      · simp [DirectoryDiff.addChild, ha, ha2]
      · simp [DirectoryDiff.addChild, hr, hr2]
      · simp [DirectoryDiff.addChild, hc, hc2]
      · intro p hp
        rcases List.mem_cons.mp hp with rfl | hp2
        · exact ZeroDiff.dir ha2 hr2 hc2 hes2
        · exact hes p hp2
    | file hcc hzz hnl hna =>
      refine ⟨⟨?_, ?_, ?_⟩, ?_⟩
      · simp [DirectoryDiff.addChild, hcc, ha]
      · simp [DirectoryDiff.addChild, hcc, hr]
      · simp [DirectoryDiff.addChild, hcc, hc]
      · intro p hp
        rcases List.mem_cons.mp hp with rfl | hp2
        · exact ZeroDiff.file hcc hzz hnl hna
        · exact hes p hp2

/-- `!=` is symmetric. -/
theorem bne_symm {α : Type} [BEq α] [LawfulBEq α] (a b : α) : (a != b) = (b != a) := by
  rcases Classical.em (a = b) with h | h
  · subst h; rfl
  · rw [bne_iff_ne.mpr h, bne_iff_ne.mpr (Ne.symm h)]

mutual

/-- The relation between `diff(A, B)` and `diff(B, A)`: identical tree
structure, `added`/`removed` swapped and `changed`/`unchanged` equal at
every directory node, equal `changed_content` at every file node, and kind
changes in both or neither. -/
inductive SwapDiff : EntryDiff → EntryDiff → Prop
  | dir {es es2 : List (Seg × EntryDiff)} {d d2 : DirectoryDiff} :
      d2.added = d.removed → d2.removed = d.added →
      d2.changed = d.changed → d2.unchanged = d.unchanged →
      SwapList es es2 →
      SwapDiff (EntryDiff.Directory es d) (EntryDiff.Directory es2 d2)
  | file {m m2 : MetricsDiff} :
      m2.changed_content = m.changed_content →
      SwapDiff (EntryDiff.File m) (EntryDiff.File m2)
  | kind : SwapDiff EntryDiff.KindChanged EntryDiff.KindChanged

/-- Pointwise `SwapDiff` between two recorded child-diff lists, with equal
keys at every position. -/
inductive SwapList : List (Seg × EntryDiff) → List (Seg × EntryDiff) → Prop
  | nil : SwapList [] []
  | cons {k : Seg} {e e2 : EntryDiff} {rest rest2 : List (Seg × EntryDiff)} :
      SwapDiff e e2 → SwapList rest rest2 →
      SwapList ((k, e) :: rest) ((k, e2) :: rest2)

end

/-- C3: swapping the two snapshots swaps `added` and `removed` at every
directory position of the diff tree while leaving `changed` and `unchanged`
untouched, the two diff trees having the same structure. -/
theorem diff_swap_symmetry (a b : Database) : SwapDiff (a.diff b) (b.diff a) := by
  suffices h : ∀ x y : Entry, SwapDiff (Entry.diff x y) (Entry.diff y x) from h a.root b.root
  intro x y
  refine Entry.diff.induct
    (fun x y => SwapDiff (Entry.diff x y) (Entry.diff y x))
    (fun old new =>
      ((diffList new old).2.added = (diffList old new).2.removed ∧
       (diffList new old).2.removed = (diffList old new).2.added ∧
       (diffList new old).2.changed = (diffList old new).2.changed ∧
       (diffList new old).2.unchanged = (diffList old new).2.unchanged) ∧
      SwapList (diffList old new).1 (diffList new old).1)
    ?_ ?_ ?_ ?_ ?_ ?_ ?_ ?_ ?_ ?_ x y
  · intro old new ih
    obtain ⟨⟨h1, h2, h3, h4⟩, hl⟩ := ih
    have e1 : Entry.diff (Entry.Directory old) (Entry.Directory new) =
        EntryDiff.Directory (diffList old new).1 (diffList old new).2 := by
      simp [Entry.diff]
    have e2 : Entry.diff (Entry.Directory new) (Entry.Directory old) =
        EntryDiff.Directory (diffList new old).1 (diffList new old).2 := by
      simp [Entry.diff]
    rw [e1, e2]
    exact SwapDiff.dir h1 h2 h3 h4 hl
  · intro o n
    have e1 : Entry.diff (Entry.File o) (Entry.File n) =
        EntryDiff.File
          { changed_content := o.size != n.size || o.sha2 != n.sha2 || o.sha3 != n.sha3,
            zeroed := decide (o.size > 0) && decide (n.size = 0),
            changed_nul := o.nul != n.nul,
            changed_nonascii := o.nonascii != n.nonascii } := by
      simp [Entry.diff]
    have e2 : Entry.diff (Entry.File n) (Entry.File o) =
        EntryDiff.File
          { changed_content := n.size != o.size || n.sha2 != o.sha2 || n.sha3 != o.sha3,
            zeroed := decide (n.size > 0) && decide (o.size = 0),
            changed_nul := n.nul != o.nul,
            changed_nonascii := n.nonascii != o.nonascii } := by
      simp [Entry.diff]
    rw [e1, e2]
    refine SwapDiff.file ?_
    rw [show (n.size != o.size) = (o.size != n.size) from bne_symm n.size o.size,
        show (n.sha2 != o.sha2) = (o.sha2 != n.sha2) from bne_symm n.sha2 o.sha2,
        show (n.sha3 != o.sha3) = (o.sha3 != n.sha3) from bne_symm n.sha3 o.sha3]
  · intro es m
    rw [show Entry.diff (Entry.Directory es) (Entry.File m) = EntryDiff.KindChanged from by
          simp [Entry.diff],
        show Entry.diff (Entry.File m) (Entry.Directory es) = EntryDiff.KindChanged from by
          simp [Entry.diff]]
    exact SwapDiff.kind
  · intro m es
    rw [show Entry.diff (Entry.File m) (Entry.Directory es) = EntryDiff.KindChanged from by
          simp [Entry.diff],
        show Entry.diff (Entry.Directory es) (Entry.File m) = EntryDiff.KindChanged from by
          simp [Entry.diff]]
    exact SwapDiff.kind
  · refine ⟨⟨?_, ?_, ?_, ?_⟩, ?_⟩
    · simp [diffList]
    · simp [diffList]
    · simp [diffList]
    · simp [diffList]
    · have h0 : diffList ([] : List (Seg × Entry)) [] =
          ([], { added := 0, removed := 0, changed := 0, unchanged := 0 }) := by
        simp [diffList]
      rw [h0]
      exact SwapList.nil
  · intro n newRest
    have h1 : diffList [] (n :: newRest) =
        ([], { added := newRest.length, removed := 0, changed := 0, unchanged := 0 }) := by
      simp [diffList]
    have h2 : diffList (n :: newRest) [] =
        ([], { added := 0, removed := newRest.length, changed := 0, unchanged := 0 }) := by
      simp [diffList]
    rw [h1, h2]
    exact ⟨⟨rfl, rfl, rfl, rfl⟩, SwapList.nil⟩
  · intro o oldRest
    have h1 : diffList (o :: oldRest) [] =
        ([], { added := 0, removed := oldRest.length, changed := 0, unchanged := 0 }) := by
      simp [diffList]
    have h2 : diffList [] (o :: oldRest) =
        ([], { added := oldRest.length, removed := 0, changed := 0, unchanged := 0 }) := by
      simp [diffList]
    rw [h1, h2]
    exact ⟨⟨rfl, rfl, rfl, rfl⟩, SwapList.nil⟩
  · intro ok ov oldRest nk nv newRest hlt ih
    obtain ⟨⟨h1, h2, h3, h4⟩, hl⟩ := ih
    have hnlt : ¬ nk < ok := lt_asymm hlt
    have e1 : diffList ((ok, ov) :: oldRest) ((nk, nv) :: newRest) =
        ((diffList oldRest ((nk, nv) :: newRest)).1,
         { (diffList oldRest ((nk, nv) :: newRest)).2 with
           removed := (diffList oldRest ((nk, nv) :: newRest)).2.removed + 1 }) := by
      simp [diffList, hlt]
    have e2 : diffList ((nk, nv) :: newRest) ((ok, ov) :: oldRest) =
        ((diffList ((nk, nv) :: newRest) oldRest).1,
         { (diffList ((nk, nv) :: newRest) oldRest).2 with
           added := (diffList ((nk, nv) :: newRest) oldRest).2.added + 1 }) := by
      simp [diffList, hnlt, hlt]
    rw [e1, e2]
    exact ⟨⟨by simp [h1], by simp [h2], by simp [h3], by simp [h4]⟩, hl⟩
  · intro ok ov oldRest nk nv newRest hnlt hgt ih
    obtain ⟨⟨h1, h2, h3, h4⟩, hl⟩ := ih
    have e1 : diffList ((ok, ov) :: oldRest) ((nk, nv) :: newRest) =
        ((diffList ((ok, ov) :: oldRest) newRest).1,
         { (diffList ((ok, ov) :: oldRest) newRest).2 with
           added := (diffList ((ok, ov) :: oldRest) newRest).2.added + 1 }) := by
      simp [diffList, hnlt, hgt]
    have e2 : diffList ((nk, nv) :: newRest) ((ok, ov) :: oldRest) =
        ((diffList newRest ((ok, ov) :: oldRest)).1,
         { (diffList newRest ((ok, ov) :: oldRest)).2 with
           removed := (diffList newRest ((ok, ov) :: oldRest)).2.removed + 1 }) := by
      simp [diffList, hgt]
    rw [e1, e2]
    exact ⟨⟨by simp [h1], by simp [h2], by simp [h3], by simp [h4]⟩, hl⟩
  · intro ok ov oldRest nk nv newRest hnlt hngt ih1 ih2
    obtain rfl : ok = nk := le_antisymm (not_lt.mp hngt) (not_lt.mp hnlt)
    obtain ⟨⟨h1, h2, h3, h4⟩, hl⟩ := ih2
    have e1 : diffList ((ok, ov) :: oldRest) ((ok, nv) :: newRest) =
        ((ok, Entry.diff ov nv) :: (diffList oldRest newRest).1,
         (diffList oldRest newRest).2.addChild (Entry.diff ov nv)) := by
      simp [diffList, lt_irrefl]
    have e2 : diffList ((ok, nv) :: newRest) ((ok, ov) :: oldRest) =
        ((ok, Entry.diff nv ov) :: (diffList newRest oldRest).1,
         (diffList newRest oldRest).2.addChild (Entry.diff nv ov)) := by
      simp [diffList, lt_irrefl]
    rw [e1, e2]
    generalize hq1 : Entry.diff ov nv = q1 at ih1 ⊢
    generalize hq2 : Entry.diff nv ov = q2 at ih1 ⊢
    cases ih1 with
    | dir g1 g2 g3 g4 gl =>
      refine ⟨⟨?_, ?_, ?_, ?_⟩, SwapList.cons (SwapDiff.dir g1 g2 g3 g4 gl) hl⟩ <;>
        simp [DirectoryDiff.addChild, h1, h2, h3, h4, g1, g2, g3, g4]
    | @file m m2 gcc =>
      by_cases hb : m.changed_content = true
      · refine ⟨⟨?_, ?_, ?_, ?_⟩, SwapList.cons (SwapDiff.file gcc) hl⟩ <;>
          simp [DirectoryDiff.addChild, hb, gcc, h1, h2, h3, h4]
      · rw [Bool.not_eq_true] at hb
        refine ⟨⟨?_, ?_, ?_, ?_⟩, SwapList.cons (SwapDiff.file gcc) hl⟩ <;>
          simp [DirectoryDiff.addChild, hb, gcc, h1, h2, h3, h4]
    | kind =>
      refine ⟨⟨?_, ?_, ?_, ?_⟩, SwapList.cons SwapDiff.kind hl⟩ <;>
        simp [DirectoryDiff.addChild, h1, h2, h3, h4]

/-- A non-empty relative path whose segments resolve through `Directory`
nodes to the entry `v` (intermediate nodes are forced to be directories,
since only directories admit a derivation for a non-empty remainder). -/
inductive Resolves : Entry → List Seg → Entry → Prop
  | last {entries : List (Seg × Entry)} {k : Seg} {v : Entry} :
      mapGet entries k = some v → Resolves (Entry.Directory entries) [k] v
  | step {entries : List (Seg × Entry)} {k : Seg} {sub v : Entry} {rest : List Seg} :
      mapGet entries k = some sub → rest ≠ [] → Resolves sub rest v →
      Resolves (Entry.Directory entries) (k :: rest) v

/-- A path walk that, at some directory reached along the way, asks for a
segment absent from that directory's mapping. -/
inductive MissingAt : Entry → List Seg → Prop
  | here {entries : List (Seg × Entry)} {k : Seg} {rest : List Seg} :
      mapGet entries k = none → MissingAt (Entry.Directory entries) (k :: rest)
  | there {entries : List (Seg × Entry)} {k : Seg} {sub : Entry} {rest : List Seg} :
      mapGet entries k = some sub → rest ≠ [] → MissingAt sub rest →
      MissingAt (Entry.Directory entries) (k :: rest)

/-- C6: on a non-empty path whose segments all resolve through directory
nodes, `lookup` returns (`Some` of) the entry stored at that path; and it
returns `None` whenever some segment of the path is absent from the mapping
of the directory reached at that point. -/
theorem lookup_resolves :
    (∀ (e : Entry) (p : List Seg) (v : Entry),
        Resolves e p v → Entry.lookup e p = some (some v)) ∧
    (∀ (e : Entry) (p : List Seg),
        MissingAt e p → Entry.lookup e p = some none) := by
  constructor
  · intro e p v h
    induction h with
    | last hm => simp [Entry.lookup, hm]
    | step hm hne hr ih =>
      obtain ⟨r, rest2, rfl⟩ := List.exists_cons_of_ne_nil hne
      simp only [Entry.lookup, hm]
      exact ih
  · intro e p h
    induction h with
    | here hm =>
      rename_i entries k rest
      cases rest with
      | nil => simp [Entry.lookup, hm]
      | cons r rest2 => simp [Entry.lookup, hm]
    | there hm hne hmiss ih =>
      obtain ⟨r, rest2, rfl⟩ := List.exists_cons_of_ne_nil hne
      simp only [Entry.lookup, hm]
      exact ih

/-- A sample snapshot tree, used by witness theorems. -/
def eSample : Entry :=
  Entry.Directory [("a", Entry.Directory [("b", Entry.File mSample)])]

/-- C6 witness: both directions of `lookup_resolves` applied to a concrete
tree and concrete paths. -/
theorem lookup_resolves_witness :
    Entry.lookup eSample ["a", "b"] = some (some (Entry.File mSample)) ∧
    Entry.lookup eSample ["a", "z"] = some none := by
  have h1 : mapGet [("a", Entry.Directory [("b", Entry.File mSample)])] "a" =
      some (Entry.Directory [("b", Entry.File mSample)]) := by simp [mapGet]
  have h2 : mapGet [("b", Entry.File mSample)] "b" = some (Entry.File mSample) := by
    simp [mapGet]
  have h3 : mapGet [("b", Entry.File mSample)] "z" = none := by simp [mapGet]
  constructor
  · exact lookup_resolves.1 eSample ["a", "b"] (Entry.File mSample)
      (Resolves.step h1 (by simp) (Resolves.last h2))
  · exact lookup_resolves.2 eSample ["a", "z"]
      (MissingAt.there h1 (by simp) (MissingAt.here h3))

/-- The builder's precondition for one insertion: walking the path from this
node, every existing segment leads into a directory, and the leaf key is not
yet bound.  A segment that is absent deeper than the first missing one walks
through the freshly materialised empty directory (`get_default`). -/
inductive FreshPath : Entry → List Seg → Prop
  | leaf {entries : List (Seg × Entry)} {k : Seg} :
      mapGet entries k = none → FreshPath (Entry.Directory entries) [k]
  | stepNew {entries : List (Seg × Entry)} {k : Seg} {rest : List Seg} :
      mapGet entries k = none → rest ≠ [] →
      FreshPath Entry.defaultEntry rest → FreshPath (Entry.Directory entries) (k :: rest)
  | stepOld {entries : List (Seg × Entry)} {k : Seg} {sub : Entry} {rest : List Seg} :
      mapGet entries k = some sub → rest ≠ [] →
      FreshPath sub rest → FreshPath (Entry.Directory entries) (k :: rest)

/-- C7: inserting at a path whose leaf key is already bound, or inserting
into a `File` node, hits a fatal `unreachable!` (modelled as `none`) rather
than a recoverable error; and under the builder's precondition (`FreshPath`:
the path is new and passes through no existing `File` node) the insertion
always succeeds, so the halting branches are never reached. -/
theorem insert_contract :
    (∀ (entries : List (Seg × Entry)) (k : Seg) (v file : Entry),
        mapGet entries k = some v →
        Entry.insert (Entry.Directory entries) [k] file = none) ∧
    (∀ (m : Metrics) (p : List Seg) (file : Entry),
        Entry.insert (Entry.File m) p file = none) ∧
    (∀ (e : Entry) (p : List Seg) (file : Entry),
        FreshPath e p → ∃ e2, Entry.insert e p file = some e2) := by
  refine ⟨?_, ?_, ?_⟩
  · intro entries k v file hm
    simp [Entry.insert, hm]
  · intro m p file
    cases p with
    | nil => simp [Entry.insert]
    | cons a t => cases t <;> simp [Entry.insert]
  · intro e p file h
    induction h with
    | @leaf entries k hm =>
      exact ⟨Entry.Directory (mapInsert entries k file), by simp [Entry.insert, hm]⟩
    | @stepNew entries k rest hm hne hfresh ih =>
      obtain ⟨r, rest2, rfl⟩ := List.exists_cons_of_ne_nil hne
      obtain ⟨e2, he2⟩ := ih
      refine ⟨Entry.Directory (mapInsert entries k e2), ?_⟩
      simp only [Entry.insert, hm, Option.getD_none, he2]
    | @stepOld entries k sub rest hm hne hfresh ih =>
      obtain ⟨r, rest2, rfl⟩ := List.exists_cons_of_ne_nil hne
      obtain ⟨e2, he2⟩ := ih
      refine ⟨Entry.Directory (mapInsert entries k e2), ?_⟩
      simp only [Entry.insert, hm, Option.getD_some, he2]

/-- C7 witness: a duplicate leaf insertion and an insertion into a file node
halt, and a fresh path through an existing directory succeeds. -/
theorem insert_contract_witness :
    Entry.insert eSample ["a"] (Entry.File mSample) = none ∧
    Entry.insert (Entry.File mSample) ["x"] (Entry.File mSample) = none ∧
    ∃ e2, Entry.insert eSample ["a", "c"] (Entry.File mSample) = some e2 := by
  refine ⟨?_, ?_, ?_⟩
  · exact insert_contract.1 _ "a" (Entry.Directory [("b", Entry.File mSample)]) _
      (by simp [eSample, mapGet])
  · exact insert_contract.2.1 mSample ["x"] (Entry.File mSample)
  · have h1 : mapGet [("a", Entry.Directory [("b", Entry.File mSample)])] "a" =
        some (Entry.Directory [("b", Entry.File mSample)]) := by simp [mapGet]
    have h2 : mapGet [("b", Entry.File mSample)] "c" = none := by simp [mapGet]
    exact insert_contract.2.2 eSample ["a", "c"] (Entry.File mSample)
      (FreshPath.stepOld h1 (by simp) (FreshPath.leaf h2))

/-- A path walk that reaches a `File` node while at least one segment
remains to be consumed. -/
inductive HitsFile : Entry → List Seg → Prop
  | here {entries : List (Seg × Entry)} {k : Seg} {m : Metrics} {rest : List Seg} :
      mapGet entries k = some (Entry.File m) → rest ≠ [] →
      HitsFile (Entry.Directory entries) (k :: rest)
  | there {entries : List (Seg × Entry)} {k : Seg} {sub : Entry} {rest : List Seg} :
      mapGet entries k = some sub → rest ≠ [] → HitsFile sub rest →
      HitsFile (Entry.Directory entries) (k :: rest)

/-- C9: the public lookup panics (modelled as `none`) instead of returning a
`None` result in two reachable cases: an empty path, and a proper prefix of
the path resolving to a `File` while segments remain. -/
theorem lookup_panic_cases :
    (∀ db : Database, db.lookup [] = none) ∧
    (∀ (db : Database) (p : List Seg), HitsFile db.root p → db.lookup p = none) := by
  have hent : ∀ (e : Entry) (p : List Seg), HitsFile e p → Entry.lookup e p = none := by
    intro e p h
    induction h with
    | here hm hne =>
      obtain ⟨r, rest2, rfl⟩ := List.exists_cons_of_ne_nil hne
      simp [Entry.lookup, hm]
    | there hm hne hh ih =>
      obtain ⟨r, rest2, rfl⟩ := List.exists_cons_of_ne_nil hne
      simp only [Entry.lookup, hm]
      exact ih
  constructor
  · intro db
    cases h : db.root with
    | Directory es => simp [Database.lookup, h, Entry.lookup]
    | File m => simp [Database.lookup, h, Entry.lookup]
  · intro db p h
    exact hent db.root p h

/-- C9 witness: the two panic cases at a concrete snapshot. -/
theorem lookup_panic_cases_witness :
    Database.lookup ⟨eSample⟩ [] = none ∧
    Database.lookup ⟨eSample⟩ ["a", "b", "c"] = none := by
  constructor
  · exact lookup_panic_cases.1 ⟨eSample⟩
  · have h1 : mapGet [("a", Entry.Directory [("b", Entry.File mSample)])] "a" =
        some (Entry.Directory [("b", Entry.File mSample)]) := by simp [mapGet]
    have h2 : mapGet [("b", Entry.File mSample)] "b" = some (Entry.File mSample) := by
      simp [mapGet]
    exact lookup_panic_cases.2 ⟨eSample⟩ ["a", "b", "c"]
      (HitsFile.there h1 (by simp) (HitsFile.here h2 (by simp)))

/-- The strict key-sortedness invariant that `BTreeMap` maintains, on the
association-list model. -/
def keysSorted (l : List (Seg × Entry)) : Prop :=
  l.Pairwise (fun a b => a.1 < b.1)

/-- A key strictly below the head key of a sorted list is not a key of the
list. -/
theorem not_mem_keys_of_lt_head {nk : Seg} {nv : Entry} {newRest : List (Seg × Entry)}
    (hn : keysSorted ((nk, nv) :: newRest)) {x : Seg} (hx : x < nk) :
    x ∉ ((nk, nv) :: newRest).map Prod.fst := by
  intro hmem
  simp only [List.map_cons, List.mem_cons, List.mem_map] at hmem
  rcases hmem with rfl | ⟨p, hp, rfl⟩
  · exact lt_irrefl _ hx
  · have h2 := (List.pairwise_cons.mp hn).1 p hp
    exact lt_irrefl _ (lt_trans hx h2)

/-- C10: for sorted child maps (the `BTreeMap` invariant), the child map of
the directory diff contains exactly the keys present in both directories;
keys counted as added or removed produce no child diff entry. -/
theorem diff_children_inter (old new : List (Seg × Entry))
    (ho : keysSorted old) (hn : keysSorted new) (k : Seg) :
    k ∈ (diffList old new).1.map Prod.fst ↔
      (k ∈ old.map Prod.fst ∧ k ∈ new.map Prod.fst) := by
  refine diffList.induct
    (fun _ _ => True)
    (fun old new => keysSorted old → keysSorted new → ∀ k,
      k ∈ (diffList old new).1.map Prod.fst ↔
        (k ∈ old.map Prod.fst ∧ k ∈ new.map Prod.fst))
    ?_ ?_ ?_ ?_ ?_ ?_ ?_ ?_ ?_ ?_ old new ho hn k
  · intro _ _ _; trivial
  · intro _ _; trivial
  · intro _ _; trivial
  · intro _ _; trivial
  · intro _ _ k
    have e1 : diffList ([] : List (Seg × Entry)) [] =
        ([], { added := 0, removed := 0, changed := 0, unchanged := 0 }) := by
      simp [diffList]
    rw [e1]
    simp
  · intro n newRest _ _ k
    have e1 : diffList [] (n :: newRest) =
        ([], { added := newRest.length, removed := 0, changed := 0, unchanged := 0 }) := by
      simp [diffList]
    rw [e1]
    simp
  · intro o oldRest _ _ k
    have e1 : diffList (o :: oldRest) [] =
        ([], { added := 0, removed := oldRest.length, changed := 0, unchanged := 0 }) := by
      simp [diffList]
    rw [e1]
    simp
  · intro ok ov oldRest nk nv newRest hlt ih ho hn k
    have e1 : diffList ((ok, ov) :: oldRest) ((nk, nv) :: newRest) =
        ((diffList oldRest ((nk, nv) :: newRest)).1,
         { (diffList oldRest ((nk, nv) :: newRest)).2 with
           removed := (diffList oldRest ((nk, nv) :: newRest)).2.removed + 1 }) := by
      simp [diffList, hlt]
    rw [e1]
    have hmem := not_mem_keys_of_lt_head hn hlt
    rw [ih ho.of_cons hn k]
    simp only [List.map_cons, List.mem_cons]
    constructor
    · rintro ⟨h1, h2⟩
      exact ⟨Or.inr h1, h2⟩
    · rintro ⟨h1 | h1, h2⟩
      · subst h1
        exact absurd (by simpa using h2) hmem
      · exact ⟨h1, h2⟩
  · intro ok ov oldRest nk nv newRest hnlt hgt ih ho hn k
    have e1 : diffList ((ok, ov) :: oldRest) ((nk, nv) :: newRest) =
        ((diffList ((ok, ov) :: oldRest) newRest).1,
         { (diffList ((ok, ov) :: oldRest) newRest).2 with
           added := (diffList ((ok, ov) :: oldRest) newRest).2.added + 1 }) := by
      simp [diffList, hnlt, hgt]
    rw [e1]
    have hmem := not_mem_keys_of_lt_head ho hgt
    rw [ih ho hn.of_cons k]
    simp only [List.map_cons, List.mem_cons]
    constructor
    · rintro ⟨h1, h2⟩
      exact ⟨h1, Or.inr h2⟩
    · rintro ⟨h1, h2 | h2⟩
      · subst h2
        exact absurd (by simpa using h1) hmem
      · exact ⟨h1, h2⟩
  · intro ok ov oldRest nk nv newRest hnlt hngt ih1 ih2 ho hn k
    obtain rfl : ok = nk := le_antisymm (not_lt.mp hngt) (not_lt.mp hnlt)
    have e1 : diffList ((ok, ov) :: oldRest) ((ok, nv) :: newRest) =
        ((ok, Entry.diff ov nv) :: (diffList oldRest newRest).1,
         (diffList oldRest newRest).2.addChild (Entry.diff ov nv)) := by
      simp [diffList, lt_irrefl]
    rw [e1]
    simp only [List.map_cons, List.mem_cons]
    rw [ih2 ho.of_cons hn.of_cons k]
    tauto

/-- C10 witness: the key intersection property at a concrete pair of sorted
child maps. -/
theorem diff_children_inter_witness :
    ("b" : Seg) ∈ (diffList [("a", Entry.File mSample), ("b", Entry.File mSample)]
        [("b", Entry.File mSample), ("c", Entry.File mSample)]).1.map Prod.fst ↔
      (("b" : Seg) ∈ [("a", Entry.File mSample), ("b", Entry.File mSample)].map Prod.fst ∧
       ("b" : Seg) ∈ [("b", Entry.File mSample), ("c", Entry.File mSample)].map Prod.fst) := by
  have hab : ("a" : Seg) < "b" := by rw [String.lt_iff_toList_lt]; decide
  have hbc : ("b" : Seg) < "c" := by rw [String.lt_iff_toList_lt]; decide
  refine diff_children_inter _ _ ?_ ?_ "b"
  · refine List.Pairwise.cons ?_ (List.pairwise_singleton _ _)
    intro p hp
    rw [List.mem_singleton] at hp
    subst hp
    exact hab
  · refine List.Pairwise.cons ?_ (List.pairwise_singleton _ _)
    intro p hp
    rw [List.mem_singleton] at hp
    subst hp
    exact hbc

/-- Feeding two chunks one after the other is the same as feeding their
concatenation: every engine state composes over `++`. -/
theorem Engines.input_input (e : Engines) (a b : List Nat) :
    (e.input a).input b = e.input (a ++ b) := by
  simp [Engines.input, List.any_append, List.append_assoc, Bool.or_assoc,
        List.length_append, Nat.add_assoc]

/-- Folding the read loop over a chunk list absorbs exactly the
concatenation of the chunks. -/
theorem Engines.foldl_input (chunks : List (List Nat)) (e : Engines) :
    chunks.foldl Engines.input e = e.input chunks.flatten := by
  induction chunks generalizing e with
  | nil =>
    cases e
    simp [Engines.input]
  | cons c rest ih =>
    simp only [List.foldl_cons, List.flatten_cons, ih, Engines.input_input]

/-- A byte below 256 has its high bit set iff it is at least `0x80`. -/
theorem high_bit_iff {x : Nat} (h : x < 256) : (x &&& 128 != 0) = true ↔ 128 ≤ x := by
  have e : x &&& 128 = (x.testBit 7).toNat * 128 := by
    have h2 := Nat.and_two_pow x 7
    norm_num at h2
    exact h2
  rw [e, Nat.testBit_to_div_mod]
  have e2 : (2 : Nat) ^ 7 = 128 := by norm_num
  rw [e2]
  by_cases hd : x / 128 % 2 = 1
  · simp only [hd, decide_True, Bool.toNat_true, one_mul]
    constructor
    · intro _; omega
    · intro _; simp [bne_iff_ne]
  · simp only [hd, decide_False, Bool.toNat_false, zero_mul]
    constructor
    · intro hc; simp [bne_iff_ne] at hc
    · intro hx; omega

/-- C5: the metrics of a byte sequence do not depend on how it is split
into chunks — feeding any chunking of the sequence equals feeding it in one
piece — and the resulting fields are: `size` the total byte count, `nul`
iff some byte is zero, `nonascii` iff some byte is at least `0x80`, and
each digest the (abstracted) digest finalisation of the full sequence. -/
theorem metrics_chunk_invariance (f2 f3 : List Nat → List Nat)
    (chunks : List (List Nat)) (hb : ∀ b ∈ chunks.flatten, b < 256) :
    compute_metrics f2 f3 chunks = (Engines.init.input chunks.flatten).result f2 f3 ∧
    (compute_metrics f2 f3 chunks).size = chunks.flatten.length ∧
    ((compute_metrics f2 f3 chunks).nul = true ↔ ∃ b ∈ chunks.flatten, b = 0) ∧
    ((compute_metrics f2 f3 chunks).nonascii = true ↔ ∃ b ∈ chunks.flatten, 128 ≤ b) ∧
    (compute_metrics f2 f3 chunks).sha2 = f2 chunks.flatten ∧
    (compute_metrics f2 f3 chunks).sha3 = f3 chunks.flatten := by
  have hfold : compute_metrics f2 f3 chunks =
      (Engines.init.input chunks.flatten).result f2 f3 := by
    rw [compute_metrics, Engines.foldl_input]
  refine ⟨hfold, ?_, ?_, ?_, ?_, ?_⟩
  · rw [hfold]
    simp [Engines.result, Engines.input, Engines.init]
  · rw [hfold]
    simp only [Engines.result, Engines.input, Engines.init, Bool.false_or]
    rw [List.any_eq_true]
    constructor
    · rintro ⟨b, hmem, hbeq⟩
      exact ⟨b, hmem, by simpa using hbeq⟩
    · rintro ⟨b, hmem, hbeq⟩
      exact ⟨b, hmem, by simpa using hbeq⟩
  · rw [hfold]
    simp only [Engines.result, Engines.input, Engines.init, Bool.false_or]
    rw [List.any_eq_true]
    constructor
    · rintro ⟨b, hmem, hbeq⟩
      exact ⟨b, hmem, (high_bit_iff (hb b hmem)).mp hbeq⟩
    · rintro ⟨b, hmem, hge⟩
      exact ⟨b, hmem, (high_bit_iff (hb b hmem)).mpr hge⟩
  · rw [hfold]
    simp [Engines.result, Engines.input, Engines.init]
  · rw [hfold]
    simp [Engines.result, Engines.input, Engines.init]

/-- C5 witness: chunk invariance applied to a concrete chunking of a
concrete byte sequence, with the digest finalisers instantiated. -/
theorem metrics_chunk_invariance_witness :
    compute_metrics List.reverse id [[65], [0, 255]] =
      (Engines.init.input [65, 0, 255]).result List.reverse id ∧
    (compute_metrics List.reverse id [[65], [0, 255]]).size = 3 ∧
    ((compute_metrics List.reverse id [[65], [0, 255]]).nul = true ↔
      ∃ b ∈ [65, 0, 255], b = 0) ∧
    ((compute_metrics List.reverse id [[65], [0, 255]]).nonascii = true ↔
      ∃ b ∈ [65, 0, 255], 128 ≤ b) ∧
    (compute_metrics List.reverse id [[65], [0, 255]]).sha2 = [255, 0, 65] ∧
    (compute_metrics List.reverse id [[65], [0, 255]]).sha3 = [65, 0, 255] := by
  have h := metrics_chunk_invariance List.reverse id [[65], [0, 255]] (by decide)
  obtain ⟨h1, h2, h3, h4, h5, h6⟩ := h
  refine ⟨h1, ?_, ?_, ?_, ?_, ?_⟩
  · rw [h2]; decide
  · simpa using h3
  · simpa using h4
  · rw [h5]; decide
  · rw [h6]; decide

/-- Modelled from the spec: the serialization codecs (`serde_json` and
`serde_cbor` acting on the derived `Serialize`/`Deserialize` instances) are
external to this repository; §6 requires the snapshot to be representable
as a tree of named fields in two interchangeable self-describing encodings.
`Value` is that common tree: objects (JSON objects / CBOR maps) over byte
strings, unsigned numbers and booleans. -/
inductive Value where
  | obj : List (String × Value) → Value
  | bytes : List Nat → Value
  | num : Nat → Value
  | bool : Bool → Value
deriving Repr

/-- Modelled from the spec: `Metrics` as an object of its five named
fields (digest-A bytes, digest-B bytes, size, NUL flag, non-ASCII flag). -/
def encodeMetrics (m : Metrics) : Value :=
  Value.obj [("sha2", Value.bytes m.sha2), ("sha3", Value.bytes m.sha3),
             ("size", Value.num m.size), ("nul", Value.bool m.nul),
             ("nonascii", Value.bool m.nonascii)]

/-- Modelled from the spec: the partial inverse of `encodeMetrics`. -/
def decodeMetrics : Value → Option Metrics
  | Value.obj [("sha2", Value.bytes s2), ("sha3", Value.bytes s3),
               ("size", Value.num sz), ("nul", Value.bool nu),
               ("nonascii", Value.bool na)] =>
      some { sha2 := s2, sha3 := s3, size := sz, nul := nu, nonascii := na }
  | _ => none

mutual

/-- Modelled from the spec: the externally tagged encoding of the `Entry`
enum — a one-entry object whose key names the variant. -/
def encodeEntry : Entry → Value
  | Entry.Directory l => Value.obj [("Directory", Value.obj (encodeEntryList l))]
  | Entry.File m => Value.obj [("File", encodeMetrics m)]
termination_by e => sizeOf e
decreasing_by all_goals (simp_wf; try omega)

/-- Modelled from the spec: a directory's ordered name → child map as an
object, preserving key order. -/
def encodeEntryList : List (Seg × Entry) → List (String × Value)
  | [] => []
  | (k, v) :: rest => (k, encodeEntry v) :: encodeEntryList rest
termination_by l => sizeOf l
decreasing_by all_goals (simp_wf; try omega)

end

mutual

/-- Modelled from the spec: the partial inverse of `encodeEntry`. -/
def decodeEntry : Value → Option Entry
  | Value.obj [("Directory", Value.obj l)] =>
      (decodeEntryList l).map Entry.Directory
  | Value.obj [("File", v)] =>
      (decodeMetrics v).map Entry.File
  | _ => none
termination_by v => sizeOf v
decreasing_by all_goals (simp_wf; try omega)

/-- Modelled from the spec: the partial inverse of `encodeEntryList`. -/
def decodeEntryList : List (String × Value) → Option (List (Seg × Entry))
  | [] => some []
  | (k, v) :: rest =>
      match decodeEntry v, decodeEntryList rest with
      | some e, some es => some ((k, e) :: es)
      | _, _ => none
termination_by l => sizeOf l
decreasing_by all_goals (simp_wf; try omega)

end

/-- Modelled from the spec: a `Database` is a newtype over its root entry
and serializes as that entry. -/
def encodeDatabase (db : Database) : Value :=
  encodeEntry db.root

/-- Modelled from the spec: the partial inverse of `encodeDatabase`. -/
def decodeDatabase (v : Value) : Option Database :=
  (decodeEntry v).map Database.mk

/-- Decoding inverts encoding on metrics records. -/
theorem decodeMetrics_encodeMetrics (m : Metrics) :
    decodeMetrics (encodeMetrics m) = some m := by
  simp [encodeMetrics, decodeMetrics]

/-- C8: decoding the encoding of a snapshot yields a snapshot structurally
equal to the original — same tree shape, same child keys in the same order,
and equal digest, size, NUL-flag and non-ASCII-flag fields in every metrics
record. -/
theorem serialization_round_trip (db : Database) :
    decodeDatabase (encodeDatabase db) = some db := by
  suffices h : ∀ e : Entry, decodeEntry (encodeEntry e) = some e by
    cases db with
    | mk root => simp [encodeDatabase, decodeDatabase, h root]
  intro e
  refine encodeEntry.induct
    (fun e => decodeEntry (encodeEntry e) = some e)
    (fun l => decodeEntryList (encodeEntryList l) = some l)
    ?_ ?_ ?_ ?_ e
  · intro l ih
    simp [encodeEntry, decodeEntry, ih]
  · intro m
    simp [encodeEntry, decodeEntry, decodeMetrics_encodeMetrics]
  · simp [encodeEntryList, decodeEntryList]
  · intro k v rest ih ih2
    simp [encodeEntryList, decodeEntryList, ih, ih2]
